import Mathlib

/-!
Verification of the mortgage payoff calculator (`mortgage.py`).

The amortization engine is embedded shallowly: Python `Decimal` values become
`ℚ` (the spec mandates exact decimal arithmetic), Python lists become `List`,
the in-place mutation of the extra-payment list becomes explicit state passing,
and the two runtime failure modes of the loop body (list index out of range in
the extra-payment pass, integer modulo by zero in the periodic pass) become an
explicit `Except` error monad.
-/

/-- Track extra payments for the first `count` months (`ExtraPayment` dataclass). -/
structure ExtraPayment where
  count : ℕ
  amount : ℚ
deriving DecidableEq, Repr

/-- Extra principal payment made every `period` months (`PeriodicPayment` dataclass). -/
structure PeriodicPayment where
  period : ℕ
  payment : ℚ
deriving DecidableEq, Repr

/-- Runtime errors the simulation loop body can raise. -/
inductive Err where
  | indexError
  | divByZero
deriving DecidableEq, Repr

/-- Numeric value of a digit character. -/
def digitVal (c : Char) : ℕ := c.toNat - '0'.toNat

/-- Maximal run of digit characters at the front of the list, with the rest. -/
def takeDigits : List Char → List Char × List Char
  | [] => ([], [])
  | c :: rest =>
    if c.isDigit then
      let p := takeDigits rest
      (c :: p.1, p.2)
    else ([], c :: rest)

/-- Decimal digits to a natural number. -/
def digitsToNat (ds : List Char) : ℕ :=
  ds.foldl (fun n c => 10 * n + digitVal c) 0

/-- Leftmost match of the anchored regular expression used by both `parse`
methods, pattern `(\d+):(\d+(?:\.\d{2})?)`, under Python's leftmost-greedy
`re.match` semantics (a match of a prefix of the token suffices).  Returns the
first group as a natural number and the second group as the exact decimal
value it denotes. -/
def matchPayment (cs : List Char) : Option (ℕ × ℚ) :=
  let p1 := takeDigits cs
  if p1.1 = [] then none
  else
    match p1.2 with
    | [] => none
    | c :: r2 =>
      if c = ':' then
        let p2 := takeDigits r2
        if p2.1 = [] then none
        else
          match p2.2 with
          | '.' :: a :: b :: _ =>
            if a.isDigit && b.isDigit then
              some (digitsToNat p1.1,
                (digitsToNat p2.1 : ℚ) + ((10 * digitVal a + digitVal b : ℕ) : ℚ) / 100)
            else some (digitsToNat p1.1, (digitsToNat p2.1 : ℚ))
          | _ => some (digitsToNat p1.1, (digitsToNat p2.1 : ℚ))
      else none

/-- `ExtraPayment.parse`: accept the token iff the regex matches, raising
`ValueError` with a message naming the token otherwise. -/
def ExtraPayment.parse (value : String) : Except String ExtraPayment :=
  match matchPayment value.data with
  | none => .error ("Payment needs to be in form X:####.##: " ++ value)
  | some g => .ok ⟨g.1, g.2⟩

/-- `PeriodicPayment.parse`: accept the token iff the regex matches, raising
`ValueError` with a message naming the token otherwise. -/
def PeriodicPayment.parse (value : String) : Except String PeriodicPayment :=
  match matchPayment value.data with
  | none => .error ("Payment needs to be in form X:####.##: " ++ value)
  | some g => .ok ⟨g.1, g.2⟩

/-- Whether the token begins with one or more digits, a colon, and at least
one further digit — exactly the tokens the code's `re.match` call accepts. -/
def tokenAccepted (cs : List Char) : Bool :=
  let p1 := takeDigits cs
  !p1.1.isEmpty &&
    match p1.2 with
    | [] => false
    | c :: r2 => c == ':' && !(takeDigits r2).1.isEmpty

/-- Modelled from the claim's words: the whole token matches the
`count:amount` / `period:amount` pattern — an integer, a colon, and a decimal
amount with an optional two-decimal fraction, with nothing following. -/
def claimFullPattern (cs : List Char) : Bool :=
  let p1 := takeDigits cs
  !p1.1.isEmpty &&
    match p1.2 with
    | [] => false
    | c :: r2 =>
      c == ':' &&
        (let p2 := takeDigits r2
         !p2.1.isEmpty &&
           match p2.2 with
           | [] => true
           | ['.', a, b] => a.isDigit && b.isDigit
           | _ => false)

/-- The local state of `calculate`'s month loop: the mutable balance, the
fixed monthly payment and annual rate, the (mutated in place) extra-payment
list, the (read-only) periodic-payment list, the month counter `count`, and
the two accumulated totals (`totals["interest"]`, `totals["payments"]`),
which start at `0` via `defaultdict(int)`. -/
structure MState where
  balance : ℚ
  payment : ℚ
  rate : ℚ
  extra : List ExtraPayment
  periodic : List PeriodicPayment
  count : ℕ
  totInterest : ℚ
  totPayments : ℚ
deriving DecidableEq, Repr

/-- The `for idx in range(len(extra_payments))` loop over the extra-payment
list.  `k` is the number of loop iterations left (`range(len(...))` is
computed once, before any deletion), `idx` the current index, `cur` the
current list contents and `acc` the extra principal accumulated so far.
Accessing a stale index after an in-place deletion raises `IndexError`. -/
def extraGo : ℕ → ℕ → List ExtraPayment → ℚ → Except Err (ℚ × List ExtraPayment)
  | 0, _, cur, acc => .ok (acc, cur)
  | k + 1, idx, cur, acc =>
    match cur[idx]? with
    | none => .error .indexError
    | some p =>
      if p.count < 1 then
        extraGo k (idx + 1) (cur.eraseIdx idx) acc
      else if p.count = 1 then
        extraGo k (idx + 1) (cur.eraseIdx idx) (acc + p.amount)
      else
        extraGo k (idx + 1) (cur.set idx ⟨p.count - 1, p.amount⟩) (acc + p.amount)

/-- One whole extra-payment pass of a month: the extra principal collected and
the extra-payment list as left behind by the in-place mutation. -/
def extraPass (l : List ExtraPayment) : Except Err (ℚ × List ExtraPayment) :=
  extraGo l.length 0 l 0

/-- The `for periodic_payment in periodic_payments` loop: sum the payments of
the rules whose period divides the month counter, raising `ZeroDivisionError`
when `count % 0` is evaluated. -/
def periodicPass (count : ℕ) : List PeriodicPayment → Except Err ℚ
  | [] => .ok 0
  | p :: rest =>
    if p.period = 0 then .error .divByZero
    else if count % p.period ≠ 0 then periodicPass count rest
    else (periodicPass count rest).map (· + p.payment)

/-- Tail of one loop iteration, once the two payment passes have produced
their results `ex` (extra principal collected, list left behind) and `periSum`:
the clip logic, the balance update and the accumulation into the totals. -/
def stepResult (s : MState) (ex : ℚ × List ExtraPayment) (periSum : ℚ) : MState :=
  let interest := s.balance * s.rate / 12
  let principal := s.payment - interest
  let pe := ex.1 + periSum
  let app :=
    if s.balance < principal then (s.balance, (0 : ℚ))
    else if s.balance < principal + pe then (principal, s.balance - principal)
    else (principal, pe)
  { balance := s.balance - (app.1 + app.2)
    payment := s.payment
    rate := s.rate
    extra := ex.2
    periodic := s.periodic
    count := s.count + 1
    totInterest := s.totInterest + interest
    totPayments := s.totPayments + interest + app.1 + app.2 }

/-- One iteration of `calculate`'s `while balance > 0` loop body. -/
def step (s : MState) : Except Err MState :=
  match extraPass s.extra with
  | .error e => .error e
  | .ok ex =>
    match periodicPass (s.count + 1) s.periodic with
    | .error e => .error e
    | .ok periSum => .ok (stepResult s ex periSum)

/-- Outcome of running the month loop with a given amount of fuel. -/
inductive CalcOutcome where
  | finished (s : MState)
  | failed (e : Err)
  | fuelOut (s : MState)
deriving DecidableEq, Repr

/-- Fuel-indexed unfolding of `calculate`'s `while balance > 0` loop. -/
def calcRun : ℕ → MState → CalcOutcome
  | fuel, s =>
    if s.balance ≤ 0 then .finished s
    else
      match fuel with
      | 0 => .fuelOut s
      | k + 1 =>
        match step s with
        | .error e => .failed e
        | .ok s' => calcRun k s'

/-- The extra-payment list as it stands after one month of decrements under
the intended (crash-free) semantics: rules already at `0` and rules reaching
`0` are dropped, all others are decremented. -/
def decExtra (l : List ExtraPayment) : List ExtraPayment :=
  l.filterMap fun p => if p.count ≤ 1 then none else some ⟨p.count - 1, p.amount⟩

/-- Amount of extra principal one month collects from the front-loaded rules:
every rule with a remaining count of at least one contributes its amount. -/
def extraSum : List ExtraPayment → ℚ
  | [] => 0
  | p :: rest => (if p.count < 1 then 0 else p.amount) + extraSum rest

/-- Amount the periodic rules contribute in month `m` (1-based). -/
def periodicDue (m : ℕ) (l : List PeriodicPayment) : ℚ :=
  ((l.filter fun r => m % r.period == 0).map PeriodicPayment.payment).sum


theorem getElem?_append_cons {α : Type} (pre suf : List α) (p : α) :
    (pre ++ p :: suf)[pre.length]? = some p := by
  induction pre with
  | nil => simp
  | cons a pre ih => simpa using ih

theorem eraseIdx_append_cons {α : Type} (pre suf : List α) (p : α) :
    (pre ++ p :: suf).eraseIdx pre.length = pre ++ suf := by
  induction pre with
  | nil => rfl
  | cons a pre ih => simpa [List.eraseIdx] using ih

theorem set_append_cons {α : Type} (pre suf : List α) (p q : α) :
    (pre ++ p :: suf).set pre.length q = pre ++ q :: suf := by
  induction pre with
  | nil => rfl
  | cons a pre ih => simp [List.set, ih]

theorem getElem?_isSome_lt {α : Type} {l : List α} {i : ℕ} {a : α}
    (h : l[i]? = some a) : i < l.length := by
  by_contra hlt
  rw [List.getElem?_eq_none (by omega)] at h
  exact Option.noConfusion h

theorem extraGo_overrun : ∀ (k idx : ℕ) (cur : List ExtraPayment) (acc : ℚ),
    1 ≤ k → cur.length < idx + k → extraGo k idx cur acc = .error .indexError := by
  intro k
  induction k with
  | zero => intro idx cur acc h; omega
  | succ k ih =>
    intro idx cur acc _ hlen
    cases hget : cur[idx]? with
    | none => simp [extraGo, hget]
    | some p =>
      have hidx : idx < cur.length := getElem?_isSome_lt hget
      have hk : 1 ≤ k := by omega
      have herase : (cur.eraseIdx idx).length + 1 = cur.length :=
        List.length_eraseIdx_add_one hidx
      by_cases h1 : p.count < 1
      · simp only [extraGo, hget, if_pos h1]
        exact ih _ _ _ hk (by omega)
      · by_cases h2 : p.count = 1
        · simp only [extraGo, hget, if_neg h1, if_pos h2]
          exact ih _ _ _ hk (by omega)
        · simp only [extraGo, hget, if_neg h1, if_neg h2]
          exact ih _ _ _ hk (by simp only [List.length_set]; omega)

theorem extraGo_error : ∀ (k idx : ℕ) (cur : List ExtraPayment) (acc : ℚ) (e : Err),
    extraGo k idx cur acc = .error e → e = .indexError := by
  intro k
  induction k with
  | zero => intro idx cur acc e h; simp [extraGo] at h
  | succ k ih =>
    intro idx cur acc e h
    cases hget : cur[idx]? with
    | none =>
      simp only [extraGo, hget] at h
      exact (Except.error.inj h).symm
    | some p =>
      by_cases h1 : p.count < 1
      · simp only [extraGo, hget, if_pos h1] at h; exact ih _ _ _ _ h
      · by_cases h2 : p.count = 1
        · simp only [extraGo, hget, if_neg h1, if_pos h2] at h; exact ih _ _ _ _ h
        · simp only [extraGo, hget, if_neg h1, if_neg h2] at h; exact ih _ _ _ _ h

theorem extraGo_ok : ∀ (suf pre : List ExtraPayment) (acc q : ℚ) (out : List ExtraPayment),
    extraGo suf.length pre.length (pre ++ suf) acc = .ok (q, out) →
    out = pre ++ decExtra suf ∧ q = acc + extraSum suf := by
  intro suf
  induction suf with
  | nil =>
    intro pre acc q out h
    simp only [List.length_nil, extraGo, Except.ok.injEq, Prod.mk.injEq] at h
    refine ⟨?_, ?_⟩
    · simp [decExtra, ← h.2]
    · simp [extraSum, ← h.1]
  | cons p rest ih =>
    intro pre acc q out h
    have hget : (pre ++ p :: rest)[pre.length]? = some p := getElem?_append_cons _ _ _
    simp only [List.length_cons, extraGo, hget] at h
    by_cases h1 : p.count < 1
    · rw [if_pos h1, eraseIdx_append_cons] at h
      cases rest with
      | nil =>
        simp only [List.length_nil, extraGo, Except.ok.injEq, Prod.mk.injEq] at h
        refine ⟨?_, ?_⟩
        · simp [decExtra, ← h.2, List.filterMap_cons, Nat.lt_one_iff.mp h1]
        · simp [extraSum, ← h.1, Nat.lt_one_iff.mp h1]
      | cons r rest' =>
        rw [extraGo_overrun _ _ _ _ (by simp) (by simp)] at h
        exact absurd h (by simp)
    · by_cases h2 : p.count = 1
      · rw [if_neg h1, if_pos h2, eraseIdx_append_cons] at h
        cases rest with
        | nil =>
          simp only [List.length_nil, extraGo, Except.ok.injEq, Prod.mk.injEq] at h
          refine ⟨?_, ?_⟩
          · simp [decExtra, ← h.2, List.filterMap_cons, if_pos (by omega : p.count ≤ 1)]
          · simp only [extraSum, if_neg h1, ← h.1]
            ring
        | cons r rest' =>
          rw [extraGo_overrun _ _ _ _ (by simp) (by simp)] at h
          exact absurd h (by simp)
      · rw [if_neg h1, if_neg h2, set_append_cons] at h
        rw [show pre.length + 1 = (pre ++ [(⟨p.count - 1, p.amount⟩ : ExtraPayment)]).length by simp,
            show pre ++ (⟨p.count - 1, p.amount⟩ : ExtraPayment) :: rest
               = (pre ++ [(⟨p.count - 1, p.amount⟩ : ExtraPayment)]) ++ rest by simp] at h
        obtain ⟨ho, hq⟩ := ih _ _ _ _ h
        refine ⟨?_, ?_⟩
        · rw [ho]
          simp [decExtra, List.filterMap_cons, if_neg (by omega : ¬ p.count ≤ 1)]
        · rw [hq]
          simp only [extraSum, if_neg h1]
          ring

theorem extraPass_ok (l : List ExtraPayment) (q : ℚ) (out : List ExtraPayment)
    (h : extraPass l = .ok (q, out)) : out = decExtra l ∧ q = extraSum l := by
  have h' : extraGo l.length (([] : List ExtraPayment)).length (([] : List ExtraPayment) ++ l) 0
      = .ok (q, out) := by
    simpa [extraPass] using h
  simpa using extraGo_ok l [] 0 q out h'

theorem extraPass_error (l : List ExtraPayment) (e : Err)
    (h : extraPass l = .error e) : e = .indexError :=
  extraGo_error _ _ _ _ _ h

theorem periodicPass_pos (m : ℕ) (l : List PeriodicPayment) (hl : ∀ r ∈ l, 1 ≤ r.period) :
    periodicPass m l = .ok (periodicDue m l) := by
  induction l with
  | nil => simp [periodicPass, periodicDue]
  | cons p rest ih =>
    have hp : ¬ p.period = 0 := by have := hl p (by simp); omega
    have hrest := ih fun r hr => hl r (by simp [hr])
    by_cases hm : m % p.period = 0
    · simp only [periodicPass, if_neg hp]
      rw [if_neg (by simp [hm]), hrest]
      simp only [Except.map, periodicDue, List.filter_cons, hm]
      norm_num [List.sum_cons]
      ring
    · simp only [periodicPass, if_neg hp]
      rw [if_pos (by simp [hm]), hrest]
      simp [periodicDue, List.filter_cons, hm]

theorem periodicPass_zero (m : ℕ) (l : List PeriodicPayment) (h : ∃ r ∈ l, r.period = 0) :
    periodicPass m l = .error .divByZero := by
  induction l with
  | nil => simp at h
  | cons p rest ih =>
    obtain ⟨r, hr, hr0⟩ := h
    rcases List.mem_cons.mp hr with h1 | h1
    · subst h1
      simp [periodicPass, hr0]
    · have hrest := ih ⟨r, h1, hr0⟩
      by_cases hp : p.period = 0
      · simp [periodicPass, hp]
      · by_cases hm : m % p.period = 0
        · simp only [periodicPass, if_neg hp]
          rw [if_neg (by simp [hm]), hrest]
          rfl
        · simp only [periodicPass, if_neg hp]
          rw [if_pos (by simp [hm])]
          exact hrest

theorem periodicPass_nonneg (m : ℕ) (l : List PeriodicPayment) (q : ℚ)
    (h : periodicPass m l = .ok q) (hl : ∀ r ∈ l, 0 ≤ r.payment) : 0 ≤ q := by
  induction l generalizing q with
  | nil =>
    simp only [periodicPass, Except.ok.injEq] at h
    rw [← h]
  | cons p rest ih =>
    by_cases hp : p.period = 0
    · simp [periodicPass, hp] at h
    · have hrec := fun q' h' => ih q' h' fun r hr => hl r (by simp [hr])
      by_cases hm : m % p.period = 0
      · simp only [periodicPass, if_neg hp] at h
        rw [if_neg (by simp [hm])] at h
        cases hq' : periodicPass m rest with
        | error e => rw [hq'] at h; exact absurd h (by simp [Except.map])
        | ok q' =>
          rw [hq'] at h
          simp only [Except.map, Except.ok.injEq] at h
          have h1 := hrec q' hq'
          have h2 := hl p (by simp)
          rw [← h]
          linarith
      · simp only [periodicPass, if_neg hp] at h
        rw [if_pos (by simp [hm])] at h
        exact hrec q h

theorem extraSum_nonneg (l : List ExtraPayment) (h : ∀ p ∈ l, 0 ≤ p.amount) :
    0 ≤ extraSum l := by
  induction l with
  | nil => simp [extraSum]
  | cons p rest ih =>
    have h1 := h p (by simp)
    have h2 := ih fun x hx => h x (by simp [hx])
    simp only [extraSum]
    by_cases hc : p.count < 1
    · rw [if_pos hc]; linarith
    · rw [if_neg hc]; linarith

theorem decExtra_nonneg (l : List ExtraPayment) (h : ∀ p ∈ l, 0 ≤ p.amount) :
    ∀ p ∈ decExtra l, 0 ≤ p.amount := by
  intro p hp
  obtain ⟨a, ha, hfa⟩ := List.mem_filterMap.mp hp
  by_cases h1 : a.count ≤ 1
  · rw [if_pos h1] at hfa
    exact absurd hfa (by simp)
  · rw [if_neg h1] at hfa
    rw [← Option.some.inj hfa]
    exact h a ha

theorem stepResult_balance_nonneg (s : MState) (ex : ℚ × List ExtraPayment) (pq : ℚ) :
    0 ≤ (stepResult s ex pq).balance := by
  simp only [stepResult]
  split_ifs with h1 h2
  · simp
  · simp
  · simp
    linarith

theorem stepResult_balance_le (s : MState) (ex : ℚ × List ExtraPayment) (pq : ℚ)
    (hb : 0 ≤ s.balance) (hint : s.balance * s.rate / 12 ≤ s.payment)
    (he : 0 ≤ ex.1) (hpq : 0 ≤ pq) :
    (stepResult s ex pq).balance ≤ s.balance := by
  simp only [stepResult]
  split_ifs with h1 h2 <;> simp <;> linarith

theorem stepResult_progress (s : MState) (ex : ℚ × List ExtraPayment) (pq : ℚ) (p0 : ℚ)
    (hp0 : p0 ≤ s.payment - s.balance * s.rate / 12) (he : 0 ≤ ex.1) (hpq : 0 ≤ pq) :
    (stepResult s ex pq).balance = 0 ∨ (stepResult s ex pq).balance ≤ s.balance - p0 := by
  simp only [stepResult]
  split_ifs with h1 h2
  · left; simp
  · left; simp
  · right; simp; linarith

theorem stepResult_conserve (s : MState) (ex : ℚ × List ExtraPayment) (pq : ℚ) :
    (stepResult s ex pq).totPayments + (stepResult s ex pq).balance
        - (stepResult s ex pq).totInterest
      = s.totPayments + s.balance - s.totInterest := by
  simp only [stepResult]
  split_ifs with h1 h2 <;> simp <;> ring

theorem stepResult_frame (s : MState) (ex : ℚ × List ExtraPayment) (pq : ℚ) :
    (stepResult s ex pq).payment = s.payment ∧ (stepResult s ex pq).rate = s.rate ∧
      (stepResult s ex pq).periodic = s.periodic ∧ (stepResult s ex pq).extra = ex.2 ∧
      (stepResult s ex pq).count = s.count + 1 := by
  simp [stepResult]

theorem stepResult_clip (s : MState) (ex : ℚ × List ExtraPayment) (pq : ℚ)
    (hc : s.balance < s.payment - s.balance * s.rate / 12 ∨
      s.balance < (s.payment - s.balance * s.rate / 12) + (ex.1 + pq)) :
    (stepResult s ex pq).balance = 0 := by
  simp only [stepResult]
  split_ifs with h1 h2
  · simp
  · simp
  · rcases hc with hc | hc
    · exact absurd hc h1
    · exact absurd hc h2

theorem step_ok_cases (s s' : MState) (h : step s = .ok s') :
    ∃ ex pq, extraPass s.extra = .ok ex ∧
      periodicPass (s.count + 1) s.periodic = .ok pq ∧ s' = stepResult s ex pq := by
  unfold step at h
  cases hex : extraPass s.extra with
  | error e => rw [hex] at h; exact absurd h (by simp)
  | ok ex =>
    rw [hex] at h
    cases hpq : periodicPass (s.count + 1) s.periodic with
    | error e => rw [hpq] at h; exact absurd h (by simp)
    | ok pq =>
      rw [hpq] at h
      exact ⟨ex, pq, rfl, rfl, (Except.ok.inj h).symm⟩

theorem step_error_cases (s : MState) (e : Err) (h : step s = .error e)
    (hper : ∀ r ∈ s.periodic, 1 ≤ r.period) : e = .indexError := by
  unfold step at h
  cases hex : extraPass s.extra with
  | error e' =>
    rw [hex] at h
    simp only [Except.error.injEq] at h
    rw [← h]
    exact extraPass_error _ _ hex
  | ok ex =>
    rw [hex, periodicPass_pos _ _ hper] at h
    exact absurd h (by simp)

theorem calcRun_finished_balance : ∀ (fuel : ℕ) (s s' : MState),
    0 < s.balance → calcRun fuel s = .finished s' → s'.balance = 0 := by
  intro fuel
  induction fuel with
  | zero =>
    intro s s' hb h
    unfold calcRun at h
    rw [if_neg (by linarith)] at h
    exact absurd h (by simp)
  | succ k ih =>
    intro s s' hb h
    unfold calcRun at h
    rw [if_neg (by linarith)] at h
    cases hstep : step s with
    | error e => rw [hstep] at h; exact absurd h (by simp)
    | ok s1 =>
      rw [hstep] at h
      by_cases hb1 : 0 < s1.balance
      · exact ih s1 s' hb1 h
      · obtain ⟨ex, pq, _, _, hres⟩ := step_ok_cases s s1 hstep
        have h0 : 0 ≤ s1.balance := hres ▸ stepResult_balance_nonneg s ex pq
        have hz : s1.balance = 0 := le_antisymm (by linarith) h0
        unfold calcRun at h
        rw [if_pos (by linarith)] at h
        rw [← CalcOutcome.finished.inj h]
        exact hz

theorem calcRun_conserve : ∀ (fuel : ℕ) (s s' : MState),
    calcRun fuel s = .finished s' →
    s'.totPayments + s'.balance - s'.totInterest
      = s.totPayments + s.balance - s.totInterest := by
  intro fuel
  induction fuel with
  | zero =>
    intro s s' h
    unfold calcRun at h
    by_cases hb : s.balance ≤ 0
    · rw [if_pos hb] at h
      rw [← CalcOutcome.finished.inj h]
    · rw [if_neg hb] at h
      exact absurd h (by simp)
  | succ k ih =>
    intro s s' h
    unfold calcRun at h
    by_cases hb : s.balance ≤ 0
    · rw [if_pos hb] at h
      rw [← CalcOutcome.finished.inj h]
    · rw [if_neg hb] at h
      cases hstep : step s with
      | error e => rw [hstep] at h; exact absurd h (by simp)
      | ok s1 =>
        rw [hstep] at h
        obtain ⟨ex, pq, _, _, hres⟩ := step_ok_cases s s1 hstep
        have hc := stepResult_conserve s ex pq
        rw [← hres] at hc
        rw [ih s1 s' h, hc]

theorem calcRun_stop (fuel : ℕ) (s : MState) (hb : s.balance ≤ 0) :
    calcRun fuel s = .finished s := by
  unfold calcRun
  rw [if_pos hb]

theorem calcRun_succ_err (k : ℕ) (s : MState) (e : Err) (hb : ¬ s.balance ≤ 0)
    (h : step s = .error e) : calcRun (k + 1) s = .failed e := by
  unfold calcRun
  rw [if_neg hb, h]

theorem calcRun_succ_ok (k : ℕ) (s : MState) (s1 : MState) (hb : ¬ s.balance ≤ 0)
    (h : step s = .ok s1) : calcRun (k + 1) s = calcRun k s1 := by
  conv_lhs => unfold calcRun
  rw [if_neg hb, h]

/-- Invariant carried along a run for the termination argument: payment, rate
and the periodic list never change, the balance stays within `[0, B]`, and
the extra-payment amounts stay nonnegative. -/
def RunInv (B pay rate : ℚ) (per : List PeriodicPayment) (s : MState) : Prop :=
  s.payment = pay ∧ s.rate = rate ∧ s.periodic = per ∧
    0 ≤ s.balance ∧ s.balance ≤ B ∧ ∀ p ∈ s.extra, 0 ≤ p.amount

theorem step_progress (B pay rate : ℚ) (per : List PeriodicPayment) (s : MState)
    (hrate : 0 ≤ rate) (hpay : B * rate / 12 < pay)
    (hper : ∀ r ∈ per, 1 ≤ r.period ∧ 0 ≤ r.payment)
    (hinv : RunInv B pay rate per s) (hb : 0 < s.balance) :
    step s = .error .indexError ∨
      ∃ s', step s = .ok s' ∧ RunInv B pay rate per s' ∧
        (s'.balance = 0 ∨ s'.balance ≤ s.balance - (pay - B * rate / 12)) := by
  obtain ⟨hp, hr, hpd, hb0, hbB, hexa⟩ := hinv
  cases hexp : extraPass s.extra with
  | error e =>
    left
    have he := extraPass_error _ _ hexp
    unfold step
    rw [hexp, he]
  | ok ex =>
    right
    obtain ⟨eq, out⟩ := ex
    obtain ⟨hout, heq⟩ := extraPass_ok _ _ _ hexp
    have hper' : ∀ r ∈ s.periodic, 1 ≤ r.period := by
      rw [hpd]; exact fun r hr' => (hper r hr').1
    have hpp := periodicPass_pos (s.count + 1) s.periodic hper'
    have hqnn : 0 ≤ periodicDue (s.count + 1) s.periodic :=
      periodicPass_nonneg _ _ _ hpp (by rw [hpd]; exact fun r hr' => (hper r hr').2)
    have hennn : 0 ≤ eq := heq ▸ extraSum_nonneg _ hexa
    have hp0le : pay - B * rate / 12 ≤ s.payment - s.balance * s.rate / 12 := by
      rw [hp, hr]
      have : s.balance * rate ≤ B * rate := mul_le_mul_of_nonneg_right hbB hrate
      linarith
    have hprog := stepResult_progress s (eq, out) (periodicDue (s.count + 1) s.periodic)
      (pay - B * rate / 12) hp0le hennn hqnn
    have hfr := stepResult_frame s (eq, out) (periodicDue (s.count + 1) s.periodic)
    refine ⟨stepResult s (eq, out) (periodicDue (s.count + 1) s.periodic), ?_, ?_, hprog⟩
    · unfold step
      rw [hexp, hpp]
    · refine ⟨hfr.1.trans hp, hfr.2.1.trans hr, hfr.2.2.1.trans hpd, ?_, ?_, ?_⟩
      · exact stepResult_balance_nonneg _ _ _
      · rcases hprog with h0 | hle
        · rw [h0]; linarith
        · have hp0 : 0 < pay - B * rate / 12 := by linarith
          linarith
      · rw [hfr.2.2.2.1, hout]
        exact decExtra_nonneg _ hexa

theorem calcRun_terminates (B pay rate : ℚ) (per : List PeriodicPayment)
    (hrate : 0 ≤ rate) (hpay : B * rate / 12 < pay)
    (hper : ∀ r ∈ per, 1 ≤ r.period ∧ 0 ≤ r.payment) :
    ∀ (k : ℕ) (s : MState), RunInv B pay rate per s →
      s.balance ≤ (k : ℚ) * (pay - B * rate / 12) →
      (∃ s', calcRun k s = .finished s' ∧ s'.balance = 0) ∨
        calcRun k s = .failed .indexError := by
  intro k
  induction k with
  | zero =>
    intro s hinv hk
    left
    have hz : s.balance = 0 := le_antisymm (by simpa using hk) hinv.2.2.2.1
    exact ⟨s, calcRun_stop 0 s (le_of_eq hz), hz⟩
  | succ k ih =>
    intro s hinv hk
    by_cases hb : s.balance ≤ 0
    · left
      have hz : s.balance = 0 := le_antisymm hb hinv.2.2.2.1
      exact ⟨s, calcRun_stop _ s hb, hz⟩
    · push_neg at hb
      rcases step_progress B pay rate per s hrate hpay hper hinv hb with herr |
        ⟨s1, hok, hinv1, hprog⟩
      · right
        exact calcRun_succ_err k s _ (by linarith) herr
      · rw [calcRun_succ_ok k s s1 (by linarith) hok]
        apply ih s1 hinv1
        have hp0 : 0 < pay - B * rate / 12 := by linarith
        rcases hprog with h0 | hle
        · rw [h0]
          positivity
        · have hcast : ((k + 1 : ℕ) : ℚ) = (k : ℚ) + 1 := by push_cast; ring
          rw [hcast] at hk
          linarith

theorem calcRun_diverges_aux : ∀ (fuel : ℕ) (s : MState),
    s.extra = [] → s.periodic = [] → 0 ≤ s.rate →
    s.payment ≤ s.balance * s.rate / 12 → 0 < s.balance →
    ∃ s', calcRun fuel s = .fuelOut s' := by
  intro fuel
  induction fuel with
  | zero =>
    intro s hex hper _ _ hb
    refine ⟨s, ?_⟩
    unfold calcRun
    rw [if_neg (by linarith)]
  | succ k ih =>
    intro s hex hper hrate hpi hb
    have hexp : extraPass s.extra = .ok (0, []) := by rw [hex]; rfl
    have hpp : periodicPass (s.count + 1) s.periodic = .ok 0 := by rw [hper]; rfl
    have hstep : step s = .ok (stepResult s (0, []) 0) := by
      unfold step
      rw [hexp, hpp]
    have hb1 : ¬ s.balance < s.payment - s.balance * s.rate / 12 := by linarith
    have hb2 : ¬ s.balance < (s.payment - s.balance * s.rate / 12) + ((0 : ℚ) + 0) := by
      rw [add_zero, add_zero]
      linarith
    have hbal : (stepResult s (0, []) 0).balance
        = s.balance - (s.payment - s.balance * s.rate / 12) := by
      simp only [stepResult]
      rw [if_neg hb1, if_neg hb2]
      norm_num
    have hge : s.balance ≤ (stepResult s (0, []) 0).balance := by
      rw [hbal]
      linarith
    have hfr := stepResult_frame s (0, []) 0
    have hmul : s.balance * s.rate ≤ (stepResult s (0, []) 0).balance * s.rate :=
      mul_le_mul_of_nonneg_right hge hrate
    obtain ⟨s', hrun⟩ := ih (stepResult s (0, []) 0) hfr.2.2.2.1 (hfr.2.2.1.trans hper)
      (hfr.2.1 ▸ hrate)
      (by rw [hfr.1, hfr.2.1]; linarith)
      (by linarith)
    exact ⟨s', (calcRun_succ_ok k s _ (by linarith) hstep).trans hrun⟩

theorem isEmpty_false_of_ne_nil {α : Type} {l : List α} (h : l ≠ []) :
    l.isEmpty = false := by
  cases l with
  | nil => exact absurd rfl h
  | cons a t => rfl

theorem matchPayment_isSome (cs : List Char) :
    (matchPayment cs).isSome = tokenAccepted cs := by
  unfold matchPayment tokenAccepted
  rcases h1 : takeDigits cs with ⟨d1, r1⟩
  simp only [h1]
  by_cases hd1 : d1 = []
  · subst hd1
    simp
  · rw [if_neg hd1]
    have hne : d1.isEmpty = false := isEmpty_false_of_ne_nil hd1
    cases r1 with
    | nil => simp [hne]
    | cons c r2 =>
      rcases h2 : takeDigits r2 with ⟨d2, r3⟩
      simp only [h2]
      by_cases hc : c = ':'
      · subst hc
        rw [if_pos rfl]
        by_cases hd2 : d2 = []
        · subst hd2
          simp [hne]
        · rw [if_neg hd2]
          have hne2 : d2.isEmpty = false := isEmpty_false_of_ne_nil hd2
          simp only [hne, hne2, Bool.not_false, Bool.true_and, Bool.and_true, beq_self_eq_true]
          split
          · split <;> rfl
          · rfl
      · rw [if_neg hc]
        have hcb : (c == ':') = false := by simpa using hc
        simp [hcb, hne]

/-- C2: upon normal termination of the month loop started with zeroed totals
(`defaultdict(int)`), the accumulated `totals["payments"]` equals the
accumulated `totals["interest"]` plus the original starting balance, i.e. the
total principal paid equals the original balance. -/
theorem C2_conservation (fuel : ℕ) (s s' : MState)
    (hti : s.totInterest = 0) (htp : s.totPayments = 0) (hb : 0 < s.balance)
    (h : calcRun fuel s = .finished s') :
    s'.totPayments = s'.totInterest + s.balance := by
  have hc := calcRun_conserve fuel s s' h
  have hz := calcRun_finished_balance fuel s s' hb h
  rw [hti, htp, hz] at hc
  linarith

/-- Witness for C2 at a concrete two-month run. -/
theorem C2_conservation_witness :
    calcRun 2 ⟨10, 6, 0, [], [], 0, 0, 0⟩ = .finished ⟨0, 6, 0, [], [], 2, 0, 10⟩ ∧
      (MState.mk 0 6 0 [] [] 2 0 10).totPayments
        = (MState.mk 0 6 0 [] [] 2 0 10).totInterest
          + (MState.mk 10 6 0 [] [] 0 0 0).balance := by
  have hrun : calcRun 2 ⟨10, 6, 0, [], [], 0, 0, 0⟩ = .finished ⟨0, 6, 0, [], [], 2, 0, 10⟩ := by
    norm_num [calcRun, step, extraPass, extraGo, periodicPass, stepResult]
  exact ⟨hrun, C2_conservation 2 _ _ rfl rfl (by norm_num) hrun⟩

/-- C3: in a month that completes, the principal plus extra actually
subtracted from the balance never exceeds the balance at the start of that
month, and whenever the clip logic fires (base principal alone covers the
balance, or principal plus extra exceeds the balance) the resulting balance
is exactly zero. -/
theorem C3_clip_invariant (s s' : MState) (eSum pSum : ℚ) (out : List ExtraPayment)
    (hex : extraPass s.extra = .ok (eSum, out))
    (hpp : periodicPass (s.count + 1) s.periodic = .ok pSum)
    (h : step s = .ok s') :
    s.balance - s'.balance ≤ s.balance ∧
      ((s.balance < s.payment - s.balance * s.rate / 12 ∨
          s.balance < (s.payment - s.balance * s.rate / 12) + (eSum + pSum)) →
        s'.balance = 0) := by
  obtain ⟨ex, pq, hex', hpp', hres⟩ := step_ok_cases s s' h
  rw [hex'] at hex
  rw [hpp'] at hpp
  have hexeq : ex = (eSum, out) := Except.ok.inj hex
  have hpqeq : pq = pSum := Except.ok.inj hpp
  rw [hexeq, hpqeq] at hres
  constructor
  · have h0 := stepResult_balance_nonneg s (eSum, out) pSum
    rw [hres]
    linarith
  · intro hcond
    rw [hres]
    exact stepResult_clip s (eSum, out) pSum hcond

/-- Witness for C3 at a month where the clip fires on the extra payment. -/
theorem C3_clip_invariant_witness :
    (MState.mk 10 6 0 [⟨1, 100⟩] [] 0 0 0).balance - (MState.mk 0 6 0 [] [] 1 0 10).balance
        ≤ (MState.mk 10 6 0 [⟨1, 100⟩] [] 0 0 0).balance ∧
      (MState.mk 0 6 0 [] [] 1 0 10).balance = 0 := by
  have hex : extraPass (MState.mk 10 6 0 [⟨1, 100⟩] [] 0 0 0).extra = .ok (100, []) := by
    norm_num [extraPass, extraGo]
  have hpp : periodicPass ((MState.mk 10 6 0 [⟨1, 100⟩] [] 0 0 0).count + 1)
      (MState.mk 10 6 0 [⟨1, 100⟩] [] 0 0 0).periodic = .ok 0 := by
    norm_num [periodicPass]
  have hstep : step ⟨10, 6, 0, [⟨1, 100⟩], [], 0, 0, 0⟩ = .ok ⟨0, 6, 0, [], [], 1, 0, 10⟩ := by
    norm_num [step, extraPass, extraGo, periodicPass, stepResult]
  have h := C3_clip_invariant _ _ 100 0 [] hex hpp hstep
  exact ⟨h.1, h.2 (Or.inr (by norm_num))⟩

theorem step_two_rules_error :
    step ⟨1000, 100, 0, [⟨1, 50⟩, ⟨3, 100⟩], [], 0, 0, 0⟩ = .error .indexError := by
  rfl

/-- C5: the code does not implement the claimed per-rule
contribute/decrement/drop behaviour for every rule list — on the front-loaded
rules [count 1, count 3] the in-place deletion of the exhausted first rule
shifts the list under the stale index range and the first month raises
IndexError. -/
theorem C5_index_error :
    step ⟨1000, 100, 0, [⟨1, 50⟩, ⟨3, 100⟩], [], 0, 0, 0⟩ = .error .indexError :=
  step_two_rules_error

/-- C7 fails as stated: with the payment below the monthly interest accrual,
a simulated month strictly increases the balance. -/
theorem C7_counterexample :
    step ⟨1200, 1, 1, [], [], 0, 0, 0⟩ = .ok ⟨1299, 1, 1, [], [], 1, 100, 1⟩ ∧
      (MState.mk 1200 1 1 [] [] 0 0 0).balance < (MState.mk 1299 1 1 [] [] 1 100 1).balance := by
  constructor
  · norm_num [step, extraPass, extraGo, periodicPass, stepResult]
  · norm_num

/-- C7 (amended): provided the month's interest does not exceed the payment
and all extra amounts are nonnegative, the balance is non-increasing from one
simulated month to the next. -/
theorem C7_amended (s s' : MState)
    (hb : 0 ≤ s.balance) (hint : s.balance * s.rate / 12 ≤ s.payment)
    (hexa : ∀ p ∈ s.extra, 0 ≤ p.amount)
    (hper : ∀ r ∈ s.periodic, 0 ≤ r.payment)
    (h : step s = .ok s') : s'.balance ≤ s.balance := by
  obtain ⟨ex, pq, hex, hpp, hres⟩ := step_ok_cases s s' h
  obtain ⟨eq, out⟩ := ex
  obtain ⟨hout, heq⟩ := extraPass_ok _ _ _ hex
  have h1 : 0 ≤ eq := heq ▸ extraSum_nonneg _ hexa
  have h2 : 0 ≤ pq := periodicPass_nonneg _ _ _ hpp hper
  rw [hres]
  exact stepResult_balance_le s (eq, out) pq hb hint h1 h2

/-- Witness for the amended C7 at a concrete month. -/
theorem C7_amended_witness :
    (MState.mk 15 5 0 [] [] 1 0 5).balance ≤ (MState.mk 20 5 0 [] [] 0 0 0).balance := by
  have hstep : step ⟨20, 5, 0, [], [], 0, 0, 0⟩ = .ok ⟨15, 5, 0, [], [], 1, 0, 5⟩ := by
    norm_num [step, extraPass, extraGo, periodicPass, stepResult]
  exact C7_amended ⟨20, 5, 0, [], [], 0, 0, 0⟩ ⟨15, 5, 0, [], [], 1, 0, 5⟩
    (by norm_num) (by norm_num) (by simp) (by simp) hstep

/-- C9: a month that completes rewrites the extra-payment list in place —
every rule still pending is decremented and exhausted rules are deleted —
while the periodic-payment list is left unchanged. -/
theorem C9_frame (s s' : MState) (h : step s = .ok s') :
    s'.extra = decExtra s.extra ∧ s'.periodic = s.periodic := by
  obtain ⟨ex, pq, hex, hpp, hres⟩ := step_ok_cases s s' h
  obtain ⟨eq, out⟩ := ex
  obtain ⟨hout, heq⟩ := extraPass_ok _ _ _ hex
  have hfr := stepResult_frame s (eq, out) pq
  rw [hres]
  exact ⟨hfr.2.2.2.1.trans hout, hfr.2.2.1⟩

/-- Witness for C9 at a concrete month. -/
theorem C9_frame_witness :
    (MState.mk 0 5 0 [⟨2, 100⟩] [⟨6, 9⟩] 1 0 40).extra = decExtra [⟨3, 100⟩] ∧
      (MState.mk 0 5 0 [⟨2, 100⟩] [⟨6, 9⟩] 1 0 40).periodic
        = (MState.mk 40 5 0 [⟨3, 100⟩] [⟨6, 9⟩] 0 0 0).periodic := by
  have hstep : step ⟨40, 5, 0, [⟨3, 100⟩], [⟨6, 9⟩], 0, 0, 0⟩
      = .ok ⟨0, 5, 0, [⟨2, 100⟩], [⟨6, 9⟩], 1, 0, 40⟩ := by
    norm_num [step, extraPass, extraGo, periodicPass, stepResult]
  exact C9_frame ⟨40, 5, 0, [⟨3, 100⟩], [⟨6, 9⟩], 0, 0, 0⟩
    ⟨0, 5, 0, [⟨2, 100⟩], [⟨6, 9⟩], 1, 0, 40⟩ hstep

/-- C1 fails as stated: at the well-formed input balance 1000, payment 100,
rate 0 (so payment exceeds the monthly interest), extra-payment rules
[count 1 amount 50, count 3 amount 100] and no periodic rules, the month loop
never exits with balance 0 — the first month aborts with an IndexError from
the in-place extra-payment pruning. -/
theorem C1_counterexample :
    ¬ ∃ (fuel : ℕ) (s' : MState),
      calcRun fuel ⟨1000, 100, 0, [⟨1, 50⟩, ⟨3, 100⟩], [], 0, 0, 0⟩ = .finished s' := by
  rintro ⟨fuel, s', h⟩
  cases fuel with
  | zero =>
    rw [show calcRun 0 ⟨1000, 100, 0, [⟨1, 50⟩, ⟨3, 100⟩], [], 0, 0, 0⟩
        = .fuelOut ⟨1000, 100, 0, [⟨1, 50⟩, ⟨3, 100⟩], [], 0, 0, 0⟩ by
      norm_num [calcRun]] at h
    exact CalcOutcome.noConfusion h
  | succ k =>
    rw [calcRun_succ_err k _ Err.indexError (by norm_num) step_two_rules_error] at h
    exact CalcOutcome.noConfusion h

/-- C1 (amended): for every positive balance and payment, nonnegative rate
with payment exceeding the first month's interest, and well-formed rule lists
(nonnegative amounts, each period at least 1), the month loop terminates
after finitely many months — either exiting normally with the balance exactly
0 or aborting with the IndexError raised by the extra-payment pruning. -/
theorem C1_terminates (s : MState)
    (hb : 0 < s.balance) (_hpay : 0 < s.payment) (hrate : 0 ≤ s.rate)
    (hconv : s.balance * s.rate / 12 < s.payment)
    (hexa : ∀ p ∈ s.extra, 0 ≤ p.amount)
    (hper : ∀ r ∈ s.periodic, 1 ≤ r.period ∧ 0 ≤ r.payment) :
    ∃ fuel : ℕ, (∃ s', calcRun fuel s = .finished s' ∧ s'.balance = 0) ∨
      calcRun fuel s = .failed .indexError := by
  have hp0 : 0 < s.payment - s.balance * s.rate / 12 := by linarith
  obtain ⟨k, hk⟩ := exists_nat_ge (s.balance / (s.payment - s.balance * s.rate / 12))
  rw [div_le_iff₀ hp0] at hk
  exact ⟨k, calcRun_terminates s.balance s.payment s.rate s.periodic hrate hconv hper k s
    ⟨rfl, rfl, rfl, le_of_lt hb, le_refl _, hexa⟩ hk⟩

/-- Witness for the amended C1 at a concrete loan with both rule kinds. -/
theorem C1_terminates_witness :
    ∃ fuel : ℕ,
      (∃ s', calcRun fuel ⟨100, 60, 0, [⟨2, 5⟩], [⟨2, 7⟩], 0, 0, 0⟩ = .finished s' ∧
        s'.balance = 0) ∨
      calcRun fuel ⟨100, 60, 0, [⟨2, 5⟩], [⟨2, 7⟩], 0, 0, 0⟩ = .failed .indexError :=
  C1_terminates ⟨100, 60, 0, [⟨2, 5⟩], [⟨2, 7⟩], 0, 0, 0⟩ (by norm_num) (by norm_num)
    (by norm_num) (by norm_num) (by decide) (by decide)

/-- C4: the claim describes the intended safety guard; the code has no month
cap and no NonConvergentLoan error at all — at balance 1200, payment 1,
rate 1 (monthly interest 100, far above the payment) the loop neither
finishes nor fails for any number of simulated months: every fuel bound runs
out with the balance still positive, i.e. the code loops forever. -/
theorem C4_no_guard_diverges : ∀ fuel : ℕ, ∃ s',
    calcRun fuel ⟨1200, 1, 1, [], [], 0, 0, 0⟩ = .fuelOut s' := by
  intro fuel
  exact calcRun_diverges_aux fuel ⟨1200, 1, 1, [], [], 0, 0, 0⟩ rfl rfl (by norm_num)
    (by norm_num) (by norm_num)

/-- C6: with every period at least 1, the periodic pass of month `m` (1-based
month counter) contributes exactly the payments of the rules whose period
divides `m`, and nothing from any other rule. -/
theorem C6_periodic (l : List PeriodicPayment) (hl : ∀ r ∈ l, 1 ≤ r.period) (m : ℕ) :
    periodicPass m l
      = .ok (((l.filter fun r => decide (r.period ∣ m)).map PeriodicPayment.payment).sum) := by
  rw [periodicPass_pos m l hl]
  unfold periodicDue
  congr 3
  apply List.filter_congr
  intro r hr
  have h2 : (m % r.period = 0) ↔ (r.period ∣ m) := Nat.dvd_iff_mod_eq_zero.symm
  rw [show (m % r.period == 0) = decide (m % r.period = 0) by
    by_cases hmm : m % r.period = 0 <;> simp [hmm]]
  exact decide_eq_decide.mpr h2

/-- Witness for C6: a 12-month rule pays in month 24 and nothing in month 13. -/
theorem C6_periodic_witness :
    periodicPass 24 [⟨12, 500⟩] = .ok 500 ∧ periodicPass 13 [⟨12, 500⟩] = .ok 0 := by
  have h24 := C6_periodic [⟨12, 500⟩] (by decide) 24
  have h13 := C6_periodic [⟨12, 500⟩] (by decide) 13
  constructor
  · rw [h24]
    norm_num
  · rw [h13]
    norm_num

/-- C10 fails only in one corner: when the extra-payment pass itself crashes
first, the IndexError preempts the division by zero, so not every input with
a period-0 rule fails with a division-by-zero error. -/
theorem C10_counterexample :
    calcRun 1 ⟨1000, 100, 0, [⟨1, 50⟩, ⟨1, 60⟩], [⟨0, 100⟩], 0, 0, 0⟩ = .failed .indexError ∧
      calcRun 1 ⟨1000, 100, 0, [⟨1, 50⟩, ⟨1, 60⟩], [⟨0, 100⟩], 0, 0, 0⟩
        ≠ .failed .divByZero := by
  have h : calcRun 1 ⟨1000, 100, 0, [⟨1, 50⟩, ⟨1, 60⟩], [⟨0, 100⟩], 0, 0, 0⟩
      = .failed .indexError := by
    norm_num [calcRun, step, extraPass, extraGo, stepResult, periodicPass]
  refine ⟨h, ?_⟩
  rw [h]
  intro hcon
  exact Err.noConfusion (CalcOutcome.failed.inj hcon)

/-- C10 (amended): `PeriodicPayment.parse` accepts a token with period part 0,
and for any state with positive balance whose periodic list contains such a
rule, if the month's extra-payment pass completes without error then the
first iteration of the month loop fails with a division-by-zero error; the
loop body is therefore total only when every periodic rule has period ≥ 1. -/
theorem C10_div_by_zero :
    PeriodicPayment.parse "0:100.00" = .ok ⟨0, 100⟩ ∧
      ∀ (s : MState), 0 < s.balance → (∃ r ∈ s.periodic, r.period = 0) →
        (∃ v, extraPass s.extra = .ok v) → ∀ fuel : ℕ, 1 ≤ fuel →
          calcRun fuel s = .failed .divByZero := by
  constructor
  · unfold PeriodicPayment.parse
    rw [show matchPayment "0:100.00".data
        = some (0, ((100 : ℕ) : ℚ) + (((0 : ℕ)) : ℚ) / 100) from rfl]
    norm_num
  · rintro s hb hzero ⟨v, hv⟩ fuel hf
    obtain ⟨k, rfl⟩ : ∃ k, fuel = k + 1 := ⟨fuel - 1, by omega⟩
    have hstep : step s = .error .divByZero := by
      unfold step
      rw [hv, periodicPass_zero (s.count + 1) s.periodic hzero]
    exact calcRun_succ_err k s _ (by linarith) hstep

/-- Witness for the amended C10 at a concrete state with a period-0 rule. -/
theorem C10_div_by_zero_witness :
    PeriodicPayment.parse "0:100.00" = .ok ⟨0, 100⟩ ∧
      calcRun 1 ⟨50, 6, 0, [], [⟨0, 100⟩], 0, 0, 0⟩ = .failed .divByZero := by
  refine ⟨C10_div_by_zero.1, ?_⟩
  exact C10_div_by_zero.2 ⟨50, 6, 0, [], [⟨0, 100⟩], 0, 0, 0⟩ (by norm_num)
    ⟨⟨0, 100⟩, by simp, rfl⟩ ⟨(0, []), rfl⟩ 1 (by omega)

/-- C8 fails as stated: the code's `re.match` needs only a starting segment of
the token to match, so the token "1:2x" — which does not match the claimed
integer-colon-decimal pattern as a whole — is accepted (as count 1, amount 2)
rather than rejected. -/
theorem C8_counterexample :
    ExtraPayment.parse "1:2x" = .ok ⟨1, 2⟩ ∧ claimFullPattern "1:2x".data = false := by
  constructor
  · rfl
  · rfl

/-- C8 (amended): both parse methods raise the descriptive error naming the
offending token if and only if no starting segment of the token matches the
`count:amount` / `period:amount` pattern — that is, iff the token does not
begin with one or more digits, a colon, and at least one digit; every token
that does so begin is accepted, at parsing time. -/
theorem C8_parse_iff (s : String) :
    (tokenAccepted s.data = true →
      (∃ v, ExtraPayment.parse s = .ok v) ∧ (∃ w, PeriodicPayment.parse s = .ok w)) ∧
    (tokenAccepted s.data = false →
      ExtraPayment.parse s = .error ("Payment needs to be in form X:####.##: " ++ s) ∧
      PeriodicPayment.parse s = .error ("Payment needs to be in form X:####.##: " ++ s)) := by
  constructor
  · intro ht
    have h := matchPayment_isSome s.data
    rw [ht] at h
    obtain ⟨g, hg⟩ := Option.isSome_iff_exists.mp h
    refine ⟨⟨⟨g.1, g.2⟩, ?_⟩, ⟨⟨g.1, g.2⟩, ?_⟩⟩
    · unfold ExtraPayment.parse
      rw [hg]
    · unfold PeriodicPayment.parse
      rw [hg]
  · intro hf
    have h := matchPayment_isSome s.data
    rw [hf] at h
    have hn : matchPayment s.data = none := by
      cases hmm : matchPayment s.data with
      | none => rfl
      | some g =>
        rw [hmm] at h
        exact absurd h (by simp)
    constructor
    · unfold ExtraPayment.parse
      rw [hn]
    · unfold PeriodicPayment.parse
      rw [hn]

/-- Witness for the amended C8: a malformed token is rejected at parse time
with the message naming it. -/
theorem C8_parse_iff_witness :
    ExtraPayment.parse "bad" = .error ("Payment needs to be in form X:####.##: " ++ "bad") ∧
      PeriodicPayment.parse "bad"
        = .error ("Payment needs to be in form X:####.##: " ++ "bad") :=
  (C8_parse_iff "bad").2 (by rfl)
